import Mathlib

/-!
Verification development for the OVM fork of the solidity code-generation
backend.  The definitions below are a shallow embedding of:

* `libevmasm/JumpdestRemover.cpp` (dead-label elimination with the OVM
  PC-offset idiom),
* `libevmasm` `Assembly` deposit bookkeeping (header in the sources),
* `libevmasm/SemanticInformation.cpp` (`movable`, `canBeRemoved`),
* `libsolidity/codegen/CompilerContext.cpp` (the append callback with the
  OVM opcode rewrites, `complexRewrite`, the low-level function registry
  and its drain loop),
* `libsmtutil/SMTPortfolio.cpp` (`check`, `solverAnswered`).

Machine integers are modelled as `Nat`/`Int`; fallible code (assertThrow /
solAssert) is modelled with `Except`.
-/

deriving instance DecidableEq for Except

namespace OVM

/-! ### Instructions

EVM opcodes are modelled by their byte value, exactly as in the C++
`enum class Instruction : uint8_t`. Only the opcodes used by the claims
are given names. -/

abbrev Instruction := Nat

def STOP : Instruction := 0x00
def ADD : Instruction := 0x01
def MUL : Instruction := 0x02
def KECCAK256 : Instruction := 0x20
def ADDRESS : Instruction := 0x30
def BALANCE : Instruction := 0x31
def ORIGIN : Instruction := 0x32
def CALLER : Instruction := 0x33
def CALLDATACOPY : Instruction := 0x37
def CODECOPY : Instruction := 0x39
def GASPRICE : Instruction := 0x3a
def EXTCODESIZE : Instruction := 0x3b
def EXTCODECOPY : Instruction := 0x3c
def RETURNDATASIZE : Instruction := 0x3d
def RETURNDATACOPY : Instruction := 0x3e
def EXTCODEHASH : Instruction := 0x3f
def BLOCKHASH : Instruction := 0x40
def COINBASE : Instruction := 0x41
def TIMESTAMP : Instruction := 0x42
def NUMBER : Instruction := 0x43
def DIFFICULTY : Instruction := 0x44
def GASLIMIT : Instruction := 0x45
def CHAINID : Instruction := 0x46
def SELFBALANCE : Instruction := 0x47
def POP : Instruction := 0x50
def MLOAD : Instruction := 0x51
def MSTORE : Instruction := 0x52
def MSTORE8 : Instruction := 0x53
def SLOAD : Instruction := 0x54
def SSTORE : Instruction := 0x55
def JUMP : Instruction := 0x56
def JUMPI : Instruction := 0x57
def PC : Instruction := 0x58
def MSIZE : Instruction := 0x59
def GAS : Instruction := 0x5a
def JUMPDEST : Instruction := 0x5b
def DUP1 : Instruction := 0x80
def SWAP1 : Instruction := 0x90
def LOG0 : Instruction := 0xa0
def CREATE : Instruction := 0xf0
def CALL : Instruction := 0xf1
def CALLCODE : Instruction := 0xf2
def RETURN : Instruction := 0xf3
def DELEGATECALL : Instruction := 0xf4
def CREATE2 : Instruction := 0xf5
def STATICCALL : Instruction := 0xfa
def REVERT : Instruction := 0xfd
def INVALID : Instruction := 0xfe
def SELFDESTRUCT : Instruction := 0xff

/-- Modelled from the spec: `evmasm::isDupInstruction` (the opcode table in
`Instruction.h` is not under `src/`); DUP1..DUP16 occupy 0x80..0x8f. -/
def isDupInstruction (i : Instruction) : Bool := 0x80 ≤ i && i ≤ 0x8f

/-- Modelled from the spec: `evmasm::isSwapInstruction`; SWAP1..SWAP16 occupy
0x90..0x9f. -/
def isSwapInstruction (i : Instruction) : Bool := 0x90 ≤ i && i ≤ 0x9f

/-- Modelled from the spec: the (args, ret) arity columns of the
`instructionInfo` table (`Instruction.cpp` is not under `src/`), restricted to
the opcodes the claims need; every other opcode gets `(0, 0)`. The values
follow the standard EVM instruction set the spec refers to. -/
def instrArity (i : Instruction) : Nat × Nat :=
  if i = GAS then (0, 1)
  else if i = PC then (0, 1)
  else if i = POP then (1, 0)
  else if i = JUMP then (1, 0)
  else if i = JUMPI then (2, 0)
  else if i = SWAP1 then (2, 2)
  else if i = SSTORE then (2, 0)
  else if i = SLOAD then (1, 1)
  else if i = EXTCODESIZE then (1, 1)
  else if i = EXTCODEHASH then (1, 1)
  else if i = CALLER then (0, 1)
  else if i = ADDRESS then (0, 1)
  else if i = TIMESTAMP then (0, 1)
  else if i = NUMBER then (0, 1)
  else if i = CHAINID then (0, 1)
  else if i = GASLIMIT then (0, 1)
  else if i = CALL then (7, 1)
  else if i = STATICCALL then (6, 1)
  else if i = DELEGATECALL then (6, 1)
  else if i = REVERT then (2, 0)
  else if i = CREATE then (3, 1)
  else if i = CREATE2 then (4, 1)
  else if i = EXTCODECOPY then (4, 0)
  else (0, 0)

/-- Net stack delta of a bare opcode: items returned minus arguments taken. -/
def nativeDelta (i : Instruction) : Int :=
  ((instrArity i).2 : Int) - ((instrArity i).1 : Int)

/-! ### Assembly items

`AssemblyItem` from `libevmasm`.  `PushTag` and `Tag` items carry a
(sub-assembly id, tag id) pair; a sub-assembly id equal to
`numeric_limits<size_t>::max()` (here `maxSubId`) denotes the item's own
assembly, exactly as decoded by `AssemblyItem::splitForeignPushTag`. -/

def maxSubId : Nat := 2 ^ 64 - 1

inductive AsmItem where
  | Operation (instr : Instruction)
  | Push (v : Nat)
  | PushTag (sub tag : Nat)
  | Tag (sub tag : Nat)
  | PushData (h : Nat)
deriving DecidableEq, Repr

/-- Modelled from the spec: the combined `(owner, tag)` encoding that
`AssemblyItem::setPushTagSubIdAndTag` stores in the item's data word
(`AssemblyItem.cpp` is not under `src/`): `((sub + 1) mod 2^64) * 2^64 + tag`,
so an own-scope item (sub = `maxSubId`) has data equal to its tag id. -/
def pushTagData (sub tag : Nat) : Nat := ((sub + 1) % 2 ^ 64) * 2 ^ 64 + tag

/-- Modelled from the spec: `AssemblyItem::data()`; `Operation` items have no
data word (the accessor asserts on them), every other item kind yields one. -/
def itemData : AsmItem → Option Nat
  | .Operation _ => none
  | .Push v => some v
  | .PushTag sub tag => some (pushTagData sub tag)
  | .Tag sub tag => some (pushTagData sub tag)
  | .PushData h => some h

/-- Modelled from the spec: `AssemblyItem::splitForeignPushTag`, defined only
for `PushTag` and `Tag` items (it asserts otherwise); returns the
(sub-assembly id, tag id) pair, with `maxSubId` for own-scope items. -/
def splitForeignPushTag : AsmItem → Option (Nat × Nat)
  | .PushTag sub tag => some (sub, tag)
  | .Tag sub tag => some (sub, tag)
  | _ => none

/-- Net stack effect of appending one item, as used by `Assembly::append`
to update the deposit (`AssemblyItem::deposit`): push-like items add one
slot, tags add none, operations add `ret - args`. -/
def itemDelta : AsmItem → Int
  | .Operation i => nativeDelta i
  | .Push _ => 1
  | .PushTag _ _ => 1
  | .Tag _ _ => 0
  | .PushData _ => 1

/-! ### JumpdestRemover

`JumpdestRemover::referencedTags` walks the item sequence by index.  The C++
loop body reads `_items[i+1]` whenever `_items[i]` is a `PC` operation, and
additionally `_items[i+18]` and `_items[i+29]` when the data word of
`_items[i+1]` equals 29 (the OVM `kall` calling-convention idiom).  Those
raw `operator[]` accesses and the asserting accessors are modelled with
explicit error values. -/

inductive ScanError where
  | outOfRange (idx : Nat)
  | badData (idx : Nat)
  | badSplit (idx : Nat)
deriving DecidableEq, Repr

/-- One pass of the `referencedTags` loop, with `fuel` iterations left and
`i` the current index; `fuel` starts at `items.length` so the loop visits
exactly the indices `0 ≤ i < items.length`, as the C++ `for` loop does. -/
def referencedTagsFrom (items : List AsmItem) (subId : Nat) :
    Nat → Nat → Finset Nat → Except ScanError (Finset Nat)
  | 0, _, acc => .ok acc
  | fuel + 1, i, acc =>
    match items[i]? with
    | none => .ok acc
    | some item =>
      let acc1 :=
        match item with
        | .PushTag sub tag => if sub = subId then insert tag acc else acc
        | _ => acc
      match item with
      | .Operation instr =>
        if instr = PC then
          match items[i + 1]? with
          | none => .error (.outOfRange (i + 1))
          | some nxt =>
            match itemData nxt with
            | none => .error (.badData (i + 1))
            | some addedToPC =>
              if addedToPC = 29 then
                match items[i + 18]? with
                | none => .error (.outOfRange (i + 18))
                | some it18 =>
                  match splitForeignPushTag it18 with
                  | none => .error (.badSplit (i + 18))
                  | some st =>
                    match items[i + 29]? with
                    | none => .error (.outOfRange (i + 29))
                    | some _ =>
                      referencedTagsFrom items subId fuel (i + 1) (insert st.2 acc1)
              else referencedTagsFrom items subId fuel (i + 1) acc1
        else referencedTagsFrom items subId fuel (i + 1) acc1
      | _ => referencedTagsFrom items subId fuel (i + 1) acc1

/-- `JumpdestRemover::referencedTags`: collect every tag id referenced by a
`PushTag` of the given sub-assembly, plus the tags marked by the OVM
PC-offset idiom. -/
def referencedTags (items : List AsmItem) (subId : Nat) :
    Except ScanError (Finset Nat) :=
  referencedTagsFrom items subId items.length 0 ∅

/-- The set of same-scope push-tag references alone (the first collection
described by the spec, without the OVM idiom contributions). -/
def pushTagRefs (subId : Nat) : List AsmItem → Finset Nat
  | [] => ∅
  | .PushTag sub tag :: rest =>
    if sub = subId then insert tag (pushTagRefs subId rest)
    else pushTagRefs subId rest
  | _ :: rest => pushTagRefs subId rest

inductive JRError where
  | scan (e : ScanError)
  | foreignTagAsLabel
deriving DecidableEq, Repr

/-- The `remove_if` predicate's keep decision: every non-`Tag` item is kept,
a `Tag` is kept exactly when its id is in the live set. -/
def keepItem (live : Finset Nat) : AsmItem → Bool
  | .Tag _ tag => tag ∈ live
  | _ => true

/-- The `remove_if` phase of `JumpdestRemover::optimise`: delete `Tag` items
whose id is not referenced, asserting (as the C++ does) that every `Tag`
belongs to the own scope. -/
def removeUnrefTags : List AsmItem → Finset Nat → Except JRError (List AsmItem)
  | [], _ => .ok []
  | .Tag sub tag :: rest, live =>
    if sub = maxSubId then
      if tag ∈ live then
        (fun l => .Tag sub tag :: l) <$> removeUnrefTags rest live
      else removeUnrefTags rest live
    else .error .foreignTagAsLabel
  | it :: rest, live => (fun l => it :: l) <$> removeUnrefTags rest live

/-- `JumpdestRemover::optimise`: collect the referenced tags, union in the
externally referenced set, delete unreferenced `Tag` items, and report
whether the sequence shrank. -/
def optimise (items : List AsmItem) (ext : Finset Nat) :
    Except JRError (List AsmItem × Bool) :=
  match referencedTags items maxSubId with
  | .error e => .error (.scan e)
  | .ok refs =>
    match removeUnrefTags items (refs ∪ ext) with
    | .error e => .error e
    | .ok kept => .ok (kept, kept.length != items.length)

/-! ### SemanticInformation

`SemanticInformation::movable` and `SemanticInformation::canBeRemoved` from
`src/unnamed/part_000`.  Both consult `instructionInfo(i).sideEffects`; that
table (`Instruction.cpp`) is not under `src/`, so the two functions are
parametrised by an arbitrary side-effect assignment `se`. -/

inductive AsmError where
  | assemblyAssert
deriving DecidableEq, Repr

/-- `SemanticInformation::movable`: false for dup/swap, for any opcode with
declared side effects, and for the fixed list of state-dependent reads. -/
def movable (se : Instruction → Bool) (i : Instruction) : Bool :=
  if isDupInstruction i || isSwapInstruction i then false
  else if se i then false
  else if i = KECCAK256 || i = BALANCE || i = SELFBALANCE || i = EXTCODESIZE
      || i = EXTCODEHASH || i = RETURNDATASIZE || i = SLOAD || i = PC
      || i = MSIZE || i = GAS then false
  else true

/-- `SemanticInformation::canBeRemoved`: asserts the opcode is neither dup nor
swap (modelled as an error), then returns the negated side-effect flag. -/
def canBeRemoved (se : Instruction → Bool) (i : Instruction) :
    Except AsmError Bool :=
  if isDupInstruction i || isSwapInstruction i then .error .assemblyAssert
  else .ok (!se i)

/-- Modelled from the spec: a concrete side-effect column of the
`instructionInfo` table (storage/memory writes, logs, calls, creation,
control transfer), used only to witness the parametric statements. -/
def specSideEffects (i : Instruction) : Bool :=
  i = SSTORE || i = MSTORE || i = MSTORE8 || i = CALLDATACOPY || i = CODECOPY
    || i = EXTCODECOPY || i = RETURNDATACOPY || i = LOG0 || i = CREATE
    || i = CREATE2 || i = CALL || i = CALLCODE || i = DELEGATECALL
    || i = STATICCALL || i = SELFDESTRUCT || i = JUMP || i = JUMPI
    || i = RETURN || i = REVERT || i = STOP || i = INVALID

/-! ### CompilerContext append callback

The `Operation` branch of `CompilerContext::appendCallback`.  The outcome
records the diagnostics emitted (by error id), the boolean the callback
returns (`true` means the instruction was replaced, so `Assembly::append`
drops the original item), and which rewrite was requested. -/

structure CallbackOutcome where
  warnings : List Nat
  changed : Bool
  rewrite : Option (String × Nat × Nat × Bool)
deriving DecidableEq, Repr

/-- The opcode switch of `CompilerContext::appendCallback` (the rewrite tuple
is `(helper signature, declared in-arity, declared out-arity, optimize)`;
`simpleRewrite` forwards to `complexRewrite` with identical arities). -/
def appendCallbackOp (isBuildingUserAsm : Bool) (i : Instruction) :
    CallbackOutcome :=
  if i = SELFBALANCE || i = BALANCE then ⟨[1633], false, none⟩
  else if i = BLOCKHASH || i = CALLCODE || i = COINBASE || i = DIFFICULTY
      || i = GASPRICE || i = ORIGIN || i = SELFDESTRUCT then
    ⟨[6388], false, none⟩
  else if i = SSTORE then ⟨[], true, some ("ovmSSTORE(bytes32,bytes32)", 2, 0, true)⟩
  else if i = SLOAD then ⟨[], true, some ("ovmSLOAD(bytes32)", 1, 1, true)⟩
  else if i = EXTCODESIZE then ⟨[], true, some ("ovmEXTCODESIZE(address)", 1, 1, true)⟩
  else if i = EXTCODEHASH then ⟨[], true, some ("ovmEXTCODEHASH(address)", 1, 1, true)⟩
  else if i = CALLER then ⟨[], true, some ("ovmCALLER()", 0, 1, true)⟩
  else if i = ADDRESS then ⟨[], true, some ("ovmADDRESS()", 0, 1, false)⟩
  else if i = TIMESTAMP then ⟨[], true, some ("ovmTIMESTAMP()", 0, 1, true)⟩
  else if i = NUMBER then ⟨[], true, some ("ovmNUMBER()", 0, 1, true)⟩
  else if i = CHAINID then ⟨[], true, some ("ovmCHAINID()", 0, 1, true)⟩
  else if i = GASLIMIT then ⟨[], true, some ("ovmGASLIMIT()", 0, 1, true)⟩
  else if i = CALL then ⟨[], true, some ("ovmCALL(uint256,address,bytes)", 7, 1, true)⟩
  else if i = STATICCALL then ⟨[], true, some ("ovmSTATICCALL(uint256,address,bytes)", 6, 1, true)⟩
  else if i = DELEGATECALL then ⟨[], true, some ("ovmDELEGATECALL(uint256,address,bytes)", 6, 1, true)⟩
  else if i = REVERT then ⟨[], true, some ("ovmREVERT(bytes)", 2, 0, true)⟩
  else if i = CREATE then ⟨[], true, some ("ovmCREATE(bytes)", 3, 1, true)⟩
  else if i = CREATE2 then ⟨[], true, some ("ovmCREATE2(bytes,bytes32)", 4, 1, true)⟩
  else if i = EXTCODECOPY then ⟨[], true, some ("ovmEXTCODECOPY(address,uint256,uint256)", 4, 0, true)⟩
  else if i = RETURNDATACOPY || i = RETURNDATASIZE then
    ⟨if isBuildingUserAsm then [7742] else [], false, none⟩
  else ⟨[], false, none⟩

/-- The nine opcodes the spec classifies as forbidden in the OVM. -/
def forbiddenOps : List Instruction :=
  [SELFBALANCE, BALANCE, BLOCKHASH, CALLCODE, COINBASE, DIFFICULTY,
   GASPRICE, ORIGIN, SELFDESTRUCT]

/-- Modelled from the spec: `Assembly::append` invokes the append hook and
appends the original item only when the hook returns `false`; a `true`
return means the hook already emitted replacement code, so the original
item is suppressed.  Returns the item sequence and the diagnostics. -/
def appendWithCallback (isBuildingUserAsm : Bool) (items : List AsmItem)
    (i : Instruction) : List AsmItem × List Nat :=
  let out := appendCallbackOp isBuildingUserAsm i
  (if out.changed then items else items ++ [.Operation i], out.warnings)

/-- The rewritten opcodes with their declared arities and optimize flag, as
hard-coded in the `appendCallback` switch: `(opcode, in, out, optimize)`. -/
def ovmRewriteTable : List (Instruction × Nat × Nat × Bool) :=
  [(SSTORE, 2, 0, true), (SLOAD, 1, 1, true), (EXTCODESIZE, 1, 1, true),
   (EXTCODEHASH, 1, 1, true), (CALLER, 0, 1, true), (ADDRESS, 0, 1, false),
   (TIMESTAMP, 0, 1, true), (NUMBER, 0, 1, true), (CHAINID, 0, 1, true),
   (GASLIMIT, 0, 1, true), (CALL, 7, 1, true), (STATICCALL, 6, 1, true),
   (DELEGATECALL, 6, 1, true), (REVERT, 2, 0, true), (CREATE, 3, 1, true),
   (CREATE2, 4, 1, true), (EXTCODECOPY, 4, 0, true)]

/-! ### complexRewrite emission shape

`CompilerContext::complexRewrite(f, in, out, ...)` appends `max(0, out-in)`
`GAS` paddings, then either calls the helper through
`callLowLevelFunction(f, 0, 0, gen)` (optimize path) or appends the inline
assembly directly, then appends `max(0, in-out)` `POP`s.  Emission is
modelled as a step list: item appends plus the explicit
`adjustStackOffset` corrections `callLowLevelFunction` performs. -/

inductive EmitStep where
  | item (it : AsmItem)
  | adjust (d : Int)
deriving DecidableEq, Repr

def stepDelta : EmitStep → Int
  | .item it => itemDelta it
  | .adjust d => d

def stepsDelta (l : List EmitStep) : Int := (l.map stepDelta).sum

/-- Modelled from the spec: `CompilerUtils::moveIntoStack` rotates the top
slots with swap instructions; its net stack delta is zero. -/
def moveIntoStackSteps (depth : Nat) : List EmitStep :=
  List.replicate depth (.item (.Operation SWAP1))

/-- `CompilerContext::callLowLevelFunction`: push a fresh return tag, rotate
the arguments, push the helper's entry tag, jump into the function, adjust
the tracked stack offset by `out - 1 - in`, and place the return tag. -/
def callLowLevelFunctionSteps (inA outA retTag entryTag : Nat) : List EmitStep :=
  [.item (.PushTag maxSubId retTag)] ++ moveIntoStackSteps inA ++
  [.item (.PushTag maxSubId entryTag), .item (.Operation JUMP),
   .adjust ((outA : Int) - 1 - (inA : Int)), .item (.Tag maxSubId retTag)]

/-- Modelled from the spec: on the non-optimize path `complexRewrite` hands
the body to the inline-assembly sub-pipeline, which appends a micro-program
over the bound locals with net stack delta zero. -/
def inlineAssemblySteps : List EmitStep := [.adjust 0]

/-- `CompilerContext::complexRewrite`: `max(0, out-in)` GAS paddings, the
helper call (or direct inline assembly), `max(0, in-out)` POPs. -/
def complexRewriteSteps (inA outA : Nat) (optimize : Bool)
    (retTag entryTag : Nat) : List EmitStep :=
  List.replicate (outA - inA) (.item (.Operation GAS)) ++
  (if optimize then callLowLevelFunctionSteps 0 0 retTag entryTag
   else inlineAssemblySteps) ++
  List.replicate (inA - outA) (.item (.Operation POP))

/-! ### Low-level function registry

`CompilerContext::lowLevelFunctionTag` and the pending-generation queue.
Generator closures are identified by an id; `appendMissingLowLevelFunctions`
pops the queue front-to-back and invokes each stored generator exactly once,
so the queue's generator ids are exactly the drain's invocation trace. -/

structure LLPending where
  name : String
  inArgs : Nat
  outArgs : Nat
  genId : Nat
deriving DecidableEq, Repr

structure LLRegistry where
  usedTags : Nat
  fns : List (String × Nat)
  queue : List LLPending
deriving DecidableEq, Repr

/-- `CompilerContext::lowLevelFunctionTag`: on the first request for a name,
allocate a fresh tag, record the mapping and enqueue the generation request;
afterwards return the recorded tag unchanged. -/
def lowLevelFunctionTag (s : LLRegistry) (name : String)
    (inA outA genId : Nat) : Nat × LLRegistry :=
  match s.fns.lookup name with
  | none =>
    let tag := s.usedTags
    (tag, { usedTags := s.usedTags + 1
            fns := s.fns ++ [(name, tag)]
            queue := s.queue ++ [⟨name, inA, outA, genId⟩] })
  | some t => (t, s)

/-- Perform a sequence of registry requests for one name, returning the tags
handed back and the final registry state. -/
def requestAll (s : LLRegistry) (name : String) :
    List (Nat × Nat × Nat) → List Nat × LLRegistry
  | [] => ([], s)
  | (i, o, g) :: rest =>
    let r := lowLevelFunctionTag s name i o g
    let rs := requestAll r.2 name rest
    (r.1 :: rs.1, rs.2)

/-- The generator ids `appendMissingLowLevelFunctions` invokes while draining
the queue front-to-back (each pending entry's generator runs exactly once). -/
def drainInvokedGens (s : LLRegistry) : List Nat := s.queue.map LLPending.genId

/-! ### Draining one queue entry

The body of the `appendMissingLowLevelFunctions` loop, with the generator
modelled by the item sequence it appends.  `moveToStackTop` is modelled from
the spec as a swap rotation with net stack delta zero. -/

inductive DrainErr where
  | invalidDeposit
  | stackMismatch
deriving DecidableEq, Repr

def moveToStackTopItems (outA : Nat) : List AsmItem :=
  List.replicate outA (.Operation SWAP1)

/-- The full item sequence one drain iteration appends: the entry tag, the
generator's body, the `moveToStackTop(outArgs)` rotation, and the
out-of-function jump. -/
def drainItems (tag outA : Nat) (body : List AsmItem) : List AsmItem :=
  .Tag maxSubId tag :: (body ++ (moveToStackTopItems outA ++ [.Operation JUMP]))

/-- Append a list of items, updating the deposit and failing the moment an
update would drive it negative (`Assembly::adjustDeposit`'s assertion). -/
def runItems (d : Int) : List AsmItem → Except DrainErr Int
  | [] => .ok d
  | it :: rest =>
    let d1 := d + itemDelta it
    if d1 < 0 then .error .invalidDeposit else runItems d1 rest

/-- The deposit after each append of the list, starting from `d`. -/
def depositsAlong (d : Int) : List AsmItem → List Int
  | [] => []
  | it :: rest =>
    let d1 := d + itemDelta it
    d1 :: depositsAlong d1 rest

def sumDelta (l : List AsmItem) : Int := (l.map itemDelta).sum

/-- One iteration of `appendMissingLowLevelFunctions`: set the stack offset
to `inArgs + 1`, emit the entry tag, run the generator's body, move
`outArgs` values to the top, append the out-of-function jump, then assert
the stack height equals `outArgs` (`solAssert`, modelled as a fatal error). -/
def materializeLowLevel (inA outA tag : Nat) (body : List AsmItem) :
    Except DrainErr Nat :=
  match runItems ((inA : Int) + 1) (drainItems tag outA body) with
  | .error e => .error e
  | .ok h => if h = (outA : Int) then .ok outA else .error .stackMismatch

/-! ### Assembly deposit invariant

`Assembly::adjustDeposit` and `Assembly::setDeposit` from the header in the
sources: mutate the deposit, then assert it is non-negative. -/

inductive DepositErr where
  | invalidDeposit
deriving DecidableEq, Repr

def adjustDeposit (d adj : Int) : Except DepositErr Int :=
  let d1 := d + adj
  if d1 < 0 then .error .invalidDeposit else .ok d1

def setDeposit (_d new : Int) : Except DepositErr Int :=
  if new < 0 then .error .invalidDeposit else .ok new

inductive DepositOp where
  | adjust (d : Int)
  | setTo (d : Int)
deriving DecidableEq, Repr

/-- Apply one deposit update. -/
def applyDepositOp (d : Int) : DepositOp → Except DepositErr Int
  | .adjust x => adjustDeposit d x
  | .setTo x => setDeposit d x

/-- Run a sequence of deposit updates, recording every deposit value the
assembly exposes after each successful update; the run aborts at the first
violating update. -/
def runDepositOps (d : Int) : List DepositOp → Except DepositErr (List Int)
  | [] => .ok []
  | op :: rest =>
    match applyDepositOp d op with
    | .error e => .error e
    | .ok d1 =>
      match runDepositOps d1 rest with
      | .error e => .error e
      | .ok l => .ok (d1 :: l)

/-! ### SMT portfolio

`SMTPortfolio::check` and `SMTPortfolio::solverAnswered`. -/

inductive CheckResult where
  | SATISFIABLE
  | UNSATISFIABLE
  | UNKNOWN
  | CONFLICTING
  | ERROR
deriving DecidableEq, Repr

def solverAnswered (r : CheckResult) : Bool :=
  r = .SATISFIABLE || r = .UNSATISFIABLE

/-- The loop of `SMTPortfolio::check`: `last`/`vals` are the running
`lastResult`/`finalValues`; hitting a disagreeing second answer returns
`CONFLICTING` immediately (the `break`). -/
def checkGo : List (CheckResult × List String) → CheckResult → List String →
    CheckResult × List String
  | [], last, vals => (last, vals)
  | (r, vs) :: rest, last, vals =>
    if solverAnswered r then
      if !solverAnswered last then checkGo rest r vs
      else if last ≠ r then (.CONFLICTING, vals)
      else checkGo rest last vals
    else if r = .UNKNOWN ∧ last = .ERROR then checkGo rest .UNKNOWN vals
    else checkGo rest last vals

/-- `SMTPortfolio::check` over the per-solver results. -/
def portfolioCheck (rs : List (CheckResult × List String)) :
    CheckResult × List String :=
  checkGo rs .ERROR []

/-- A 31-item sequence whose PC idiom marks tag 7 (located via the +18
offset) although no own-scope push-tag references it; tag 5 is entirely
unreferenced. -/
def jrCexItems : List AsmItem :=
  [.Operation PC, .Push 29, .Tag maxSubId 5] ++
  List.replicate 15 (.Push 0) ++
  [.Tag maxSubId 7, .PushTag maxSubId 42] ++
  List.replicate 11 (.Push 0)

/-- The result of the first eliminator run on `jrCexItems`. -/
def jrCexKept : List AsmItem :=
  [.Operation PC, .Push 29] ++
  List.replicate 15 (.Push 0) ++
  [.Tag maxSubId 7, .PushTag maxSubId 42] ++
  List.replicate 11 (.Push 0)

/-- The result of the second eliminator run on `jrCexKept`. -/
def jrCexKept2 : List AsmItem :=
  [.Operation PC, .Push 29] ++
  List.replicate 15 (.Push 0) ++
  [.PushTag maxSubId 42] ++
  List.replicate 11 (.Push 0)

/-- A 31-item sequence where the PC idiom points (through a foreign push-tag
at offset +18) at tag 7, whose `Tag` item has no ordinary same-scope
push-tag reference. -/
def idiomWitnessItems : List AsmItem :=
  [.Operation PC, .Push 29] ++
  List.replicate 16 (.Push 0) ++
  [.PushTag 3 7] ++
  List.replicate 6 (.Push 0) ++
  [.Tag maxSubId 7] ++
  List.replicate 5 (.Push 0)

/-! ## Helper lemmas -/

lemma nativeDelta_gas : nativeDelta GAS = 1 := by decide

lemma nativeDelta_pop : nativeDelta POP = -1 := by decide

lemma nativeDelta_jump : nativeDelta JUMP = -1 := by decide

lemma nativeDelta_swap1 : nativeDelta SWAP1 = 0 := by decide

lemma stepsDelta_append (a b : List EmitStep) :
    stepsDelta (a ++ b) = stepsDelta a + stepsDelta b := by
  simp [stepsDelta]

lemma stepsDelta_replicate (n : Nat) (s : EmitStep) :
    stepsDelta (List.replicate n s) = n * stepDelta s := by
  simp [stepsDelta, List.map_replicate, List.sum_replicate, nsmul_eq_mul]

lemma callLowLevelFunctionSteps_delta (inA outA r t : Nat) :
    stepsDelta (callLowLevelFunctionSteps inA outA r t)
      = (outA : Int) - (inA : Int) := by
  simp [callLowLevelFunctionSteps, moveIntoStackSteps, stepsDelta, stepDelta,
    List.map_replicate, List.sum_replicate, nsmul_eq_mul, itemDelta,
    nativeDelta_jump, nativeDelta_swap1]
  ring

lemma complexRewriteSteps_delta (inA outA : Nat) (opt : Bool) (r t : Nat) :
    stepsDelta (complexRewriteSteps inA outA opt r t)
      = ((outA - inA : Nat) : Int) - ((inA - outA : Nat) : Int) := by
  rw [complexRewriteSteps, stepsDelta_append, stepsDelta_append,
    stepsDelta_replicate, stepsDelta_replicate]
  have hmid : stepsDelta
      (if opt then callLowLevelFunctionSteps 0 0 r t else inlineAssemblySteps) = 0 := by
    cases opt
    · simp [inlineAssemblySteps, stepsDelta, stepDelta]
    · simpa using callLowLevelFunctionSteps_delta 0 0 r t
  rw [hmid]
  have hg : stepDelta (.item (.Operation GAS)) = 1 := by decide
  have hp : stepDelta (.item (.Operation POP)) = -1 := by decide
  rw [hg, hp]
  ring

/-! ## Claim theorems -/

/-- C1: every opcode rewritten through the complex rewrite path emits
`max(0, OUT-IN)` padding pushes, the helper call, and `max(0, IN-OUT)` pops;
the net stack delta of that sequence is `OUT - IN`, which equals the net
stack delta of the original unrewritten opcode. -/
theorem complexRewrite_preserves_net_stack_delta :
    ∀ e ∈ ovmRewriteTable, ∀ retTag entryTag : Nat,
      stepsDelta (complexRewriteSteps e.2.1 e.2.2.1 e.2.2.2 retTag entryTag)
          = (e.2.2.1 : Int) - (e.2.1 : Int) ∧
      (e.2.2.1 : Int) - (e.2.1 : Int) = nativeDelta e.1 := by
  have hB : ∀ e ∈ ovmRewriteTable,
      (e.2.2.1 : Int) - (e.2.1 : Int) = nativeDelta e.1 := by decide
  intro e he r t
  exact ⟨by rw [complexRewriteSteps_delta]; omega, hB e he⟩

/-- Witness for C1 at the SSTORE rewrite. -/
theorem complexRewrite_preserves_net_stack_delta_witness :
    (SSTORE, 2, 0, true) ∈ ovmRewriteTable ∧
    (stepsDelta (complexRewriteSteps 2 0 true 0 1)
        = ((0 : Nat) : Int) - ((2 : Nat) : Int) ∧
      ((0 : Nat) : Int) - ((2 : Nat) : Int) = nativeDelta SSTORE) :=
  ⟨by decide,
   complexRewrite_preserves_net_stack_delta (SSTORE, 2, 0, true) (by decide) 0 1⟩

/-- C8: any opcode the classifier deems movable is neither a dup nor a swap
and carries no declared side effect, so `canBeRemoved` is defined on it and
returns true — for every possible side-effect table. -/
theorem movable_implies_removable (se : Instruction → Bool) (i : Instruction)
    (h : movable se i = true) :
    isDupInstruction i = false ∧ isSwapInstruction i = false ∧
    se i = false ∧ canBeRemoved se i = .ok true := by
  have h1 : (isDupInstruction i || isSwapInstruction i) = false := by
    by_contra hc
    rw [Bool.not_eq_false] at hc
    rw [movable, if_pos hc] at h
    exact Bool.false_ne_true h
  have h2 : se i = false := by
    by_contra hc
    rw [Bool.not_eq_false] at hc
    rw [movable, if_neg (by simp [h1]), if_pos hc] at h
    exact Bool.false_ne_true h
  have h1' : isDupInstruction i = false ∧ isSwapInstruction i = false := by
    simpa using h1
  refine ⟨h1'.1, h1'.2, h2, ?_⟩
  rw [canBeRemoved, if_neg (by simp [h1]), h2]
  rfl

/-- Witness for C8 at ADD with the spec-modelled side-effect table. -/
theorem movable_implies_removable_witness :
    movable specSideEffects ADD = true ∧
    (isDupInstruction ADD = false ∧ isSwapInstruction ADD = false ∧
     specSideEffects ADD = false ∧ canBeRemoved specSideEffects ADD = .ok true) :=
  ⟨by decide, movable_implies_removable specSideEffects ADD (by decide)⟩

lemma adjustDeposit_ok (d adj d1 : Int) (h : adjustDeposit d adj = .ok d1) :
    d1 = d + adj ∧ 0 ≤ d1 := by
  simp only [adjustDeposit] at h
  split_ifs at h with hlt
  injection h with h1
  exact ⟨h1.symm, by omega⟩

lemma setDeposit_ok (d new d1 : Int) (h : setDeposit d new = .ok d1) :
    d1 = new ∧ 0 ≤ d1 := by
  simp only [setDeposit] at h
  split_ifs at h with hlt
  injection h with h1
  exact ⟨h1.symm, by omega⟩

lemma applyDepositOp_ok_nonneg (d : Int) (op : DepositOp) (d1 : Int)
    (h : applyDepositOp d op = .ok d1) : 0 ≤ d1 := by
  cases op with
  | adjust a => exact (adjustDeposit_ok d a d1 h).2
  | setTo a => exact (setDeposit_ok d a d1 h).2

lemma runDepositOps_trace_nonneg :
    ∀ (ops : List DepositOp) (d : Int) (trace : List Int),
      runDepositOps d ops = .ok trace → ∀ x ∈ trace, 0 ≤ x := by
  intro ops
  induction ops with
  | nil =>
    intro d trace h x hx
    simp only [runDepositOps] at h
    injection h with h1
    subst h1
    simp at hx
  | cons op rest ih =>
    intro d trace h x hx
    simp only [runDepositOps] at h
    split at h
    · exact Except.noConfusion h
    · next d1 heq =>
      split at h
      · exact Except.noConfusion h
      · next l heq2 =>
        injection h with h1
        subst h1
        rcases List.mem_cons.mp hx with rfl | hx'
        · exact applyDepositOp_ok_nonneg d op x heq
        · exact ih d1 l heq2 x hx'

/-- C7: the deposit accumulator is never negative — a successful
`adjustDeposit`/`setDeposit` yields a non-negative deposit, a violating
update fails at that point, and every deposit observable along a successful
run of updates is non-negative. -/
theorem deposit_never_negative (d adj new : Int) (ops : List DepositOp)
    (trace : List Int) :
    (∀ d1, adjustDeposit d adj = .ok d1 → d1 = d + adj ∧ 0 ≤ d1) ∧
    (d + adj < 0 → adjustDeposit d adj = .error .invalidDeposit) ∧
    (∀ d1, setDeposit d new = .ok d1 → d1 = new ∧ 0 ≤ d1) ∧
    (new < 0 → setDeposit d new = .error .invalidDeposit) ∧
    (runDepositOps d ops = .ok trace → ∀ x ∈ trace, 0 ≤ x) := by
  refine ⟨fun d1 h => adjustDeposit_ok d adj d1 h, ?_,
    fun d1 h => setDeposit_ok d new d1 h, ?_,
    fun h => runDepositOps_trace_nonneg ops d trace h⟩
  · intro hneg
    simp only [adjustDeposit]
    rw [if_pos hneg]
  · intro hneg
    simp only [setDeposit]
    rw [if_pos hneg]

/-- Witness for C7: a concrete run that stays non-negative and a violating
adjustment that fails. -/
theorem deposit_never_negative_witness :
    ((∀ d1, adjustDeposit 1 2 = .ok d1 → d1 = 1 + 2 ∧ 0 ≤ d1) ∧
     (1 + 2 < (0 : Int) → adjustDeposit 1 2 = .error .invalidDeposit) ∧
     (∀ d1, setDeposit 1 0 = .ok d1 → d1 = 0 ∧ 0 ≤ d1) ∧
     ((0 : Int) < 0 → setDeposit 1 0 = .error .invalidDeposit) ∧
     (runDepositOps 1 [.adjust 2, .setTo 0] = .ok [3, 0] →
       ∀ x ∈ [(3 : Int), 0], 0 ≤ x)) ∧
    runDepositOps 1 [.adjust 2, .setTo 0] = .ok [3, 0] ∧
    adjustDeposit 0 (-1) = .error .invalidDeposit :=
  ⟨deposit_never_negative 1 2 0 [.adjust 2, .setTo 0] [3, 0], by decide, by decide⟩

/-- C5 (amended): every opcode in the forbidden list records exactly one
diagnostic and the hook returns false, so the original opcode is appended
unchanged rather than suppressed. -/
theorem forbidden_opcode_warns_and_passes_through (u : Bool) (i : Instruction)
    (h : i ∈ forbiddenOps) (items : List AsmItem) :
    (appendCallbackOp u i).warnings.length = 1 ∧
    (appendCallbackOp u i).changed = false ∧
    appendWithCallback u items i
      = (items ++ [.Operation i], (appendCallbackOp u i).warnings) := by
  have hco : (appendCallbackOp u i).warnings.length = 1 ∧
      (appendCallbackOp u i).changed = false := by
    fin_cases h <;> cases u <;> exact ⟨rfl, rfl⟩
  refine ⟨hco.1, hco.2, ?_⟩
  simp [appendWithCallback, hco.2]

/-- Witness for C5 at BALANCE. -/
theorem forbidden_opcode_warns_and_passes_through_witness :
    BALANCE ∈ forbiddenOps ∧
    ((appendCallbackOp false BALANCE).warnings.length = 1 ∧
     (appendCallbackOp false BALANCE).changed = false ∧
     appendWithCallback false [] BALANCE
       = ([.Operation BALANCE], (appendCallbackOp false BALANCE).warnings)) := by
  refine ⟨by decide, ?_⟩
  have h := forbidden_opcode_warns_and_passes_through false BALANCE (by decide) []
  simpa using h

/-- Counterexample to C5 as stated: on BALANCE the hook records one
diagnostic but returns false, so the opcode is appended (not suppressed) —
the emitted output still contains BALANCE. -/
theorem forbidden_opcode_not_suppressed_counterexample :
    (appendCallbackOp false BALANCE).warnings = [1633] ∧
    (appendCallbackOp false BALANCE).changed = false ∧
    (appendWithCallback false [] BALANCE).1 = [.Operation BALANCE] := by decide

lemma runItems_ok_iff :
    ∀ (l : List AsmItem) (d h : Int),
      runItems d l = .ok h ↔
        ((∀ x ∈ depositsAlong d l, 0 ≤ x) ∧ h = d + sumDelta l) := by
  intro l
  induction l with
  | nil =>
    intro d h
    simp only [runItems, depositsAlong, sumDelta, List.map_nil, List.sum_nil,
      List.not_mem_nil, false_implies, implies_true, true_and, add_zero]
    constructor
    · intro hh; injection hh with h1; exact h1.symm
    · intro hh; rw [hh]
  | cons it rest ih =>
    intro d h
    simp only [runItems, depositsAlong, sumDelta, List.map_cons, List.sum_cons]
    by_cases hneg : d + itemDelta it < 0
    · rw [if_pos hneg]
      constructor
      · intro hcon; exact Except.noConfusion hcon
      · rintro ⟨hall, -⟩
        have := hall (d + itemDelta it) (List.mem_cons_self _ _)
        omega
    · rw [if_neg hneg]
      rw [ih (d + itemDelta it) h]
      constructor
      · rintro ⟨hall, hh⟩
        refine ⟨?_, by rw [hh, sumDelta]; ring⟩
        intro x hx
        rcases List.mem_cons.mp hx with rfl | hx'
        · omega
        · exact hall x hx'
      · rintro ⟨hall, hh⟩
        refine ⟨?_, by rw [hh, sumDelta]; ring⟩
        intro x hx
        exact hall x (List.mem_cons_of_mem _ hx)

/-- C6 (amended): one drain iteration of the low-level function registry
(set stack offset to in-arity + 1, emit the entry tag, run the generator's
body, move out-arity values to the top, append the out-of-function jump,
assert the final height) succeeds iff no intermediate append drives the
deposit negative and the resulting stack height equals the declared
out-arity; any violation is a fatal error. -/
theorem lowLevel_drain_materialize_check (inA outA tag : Nat)
    (body : List AsmItem) :
    materializeLowLevel inA outA tag body = .ok outA ↔
      ((∀ x ∈ depositsAlong ((inA : Int) + 1) (drainItems tag outA body), 0 ≤ x) ∧
       ((inA : Int) + 1) + sumDelta (drainItems tag outA body) = (outA : Int)) := by
  unfold materializeLowLevel
  cases hrun : runItems ((inA : Int) + 1) (drainItems tag outA body) with
  | error e =>
    constructor
    · intro hcon; exact Except.noConfusion hcon
    · rintro ⟨hall, hfin⟩
      have hok : runItems ((inA : Int) + 1) (drainItems tag outA body)
          = .ok (((inA : Int) + 1) + sumDelta (drainItems tag outA body)) :=
        (runItems_ok_iff _ _ _).mpr ⟨hall, rfl⟩
      rw [hrun] at hok
      exact Except.noConfusion hok
  | ok hgt =>
    dsimp only
    have hch := (runItems_ok_iff _ _ _).mp hrun
    by_cases heq : hgt = (outA : Int)
    · rw [if_pos heq]
      constructor
      · intro _
        exact ⟨hch.1, by omega⟩
      · intro _
        rfl
    · rw [if_neg heq]
      constructor
      · intro hcon; exact Except.noConfusion hcon
      · rintro ⟨hall, hfin⟩
        exact absurd (by omega : hgt = (outA : Int)) heq

/-- Counterexample to C6 as stated: a generator body whose net effect makes
the final height equal the declared out-arity, yet the drain aborts with the
deposit assertion because an intermediate append underflows. -/
theorem lowLevel_drain_intermediate_underflow_counterexample :
    materializeLowLevel 0 1 5
        [.Operation POP, .Operation POP, .Operation GAS, .Operation GAS,
         .Operation GAS]
      = .error .invalidDeposit ∧
    (((0 : Nat) : Int) + 1) + sumDelta
        (drainItems 5 1
          [.Operation POP, .Operation POP, .Operation GAS, .Operation GAS,
           .Operation GAS])
      = ((1 : Nat) : Int) := by decide

lemma lookup_append_self (fns : List (String × Nat)) (name : String) (tag : Nat)
    (h : fns.lookup name = none) :
    (fns ++ [(name, tag)]).lookup name = some tag := by
  induction fns with
  | nil => simp [List.lookup]
  | cons p rest ih =>
    obtain ⟨k, v⟩ := p
    by_cases hk : (name == k) = true
    · exfalso
      simp only [List.lookup, hk] at h
      exact Option.noConfusion h
    · have hk' : (name == k) = false := by simpa using hk
      simp only [List.cons_append, List.lookup, hk'] at h ⊢
      exact ih h

lemma requestAll_found (name : String) (t : Nat) :
    ∀ (reqs : List (Nat × Nat × Nat)) (s : LLRegistry),
      s.fns.lookup name = some t →
      requestAll s name reqs = (List.replicate reqs.length t, s) := by
  intro reqs
  induction reqs with
  | nil => intro s h; simp [requestAll]
  | cons r rest ih =>
    intro s h
    obtain ⟨i, o, g⟩ := r
    simp only [requestAll, lowLevelFunctionTag, h]
    rw [ih s h]
    simp [List.replicate_succ]

/-- C2: requesting the same helper name K times (with K generator closures)
returns the tag allocated on the first request every time, enqueues only the
first request's tuple, and the drain invokes only the first generator,
exactly once. -/
theorem lowLevelFunction_requests_dedup (s : LLRegistry) (name : String)
    (i1 o1 g1 : Nat) (rest : List (Nat × Nat × Nat))
    (hfn : s.fns.lookup name = none)
    (hq : ∀ e ∈ s.queue, e.name ≠ name) :
    (requestAll s name ((i1, o1, g1) :: rest)).1
        = List.replicate (rest.length + 1) s.usedTags ∧
    (requestAll s name ((i1, o1, g1) :: rest)).2.queue
        = s.queue ++ [⟨name, i1, o1, g1⟩] ∧
    ((requestAll s name ((i1, o1, g1) :: rest)).2.queue.filter
        (fun e => e.name == name)).map LLPending.genId = [g1] ∧
    drainInvokedGens (requestAll s name ((i1, o1, g1) :: rest)).2
        = drainInvokedGens s ++ [g1] := by
  have hstep : lowLevelFunctionTag s name i1 o1 g1
      = (s.usedTags, ⟨s.usedTags + 1, s.fns ++ [(name, s.usedTags)],
          s.queue ++ [⟨name, i1, o1, g1⟩]⟩) := by
    simp [lowLevelFunctionTag, hfn]
  have hfound : ((⟨s.usedTags + 1, s.fns ++ [(name, s.usedTags)],
      s.queue ++ [⟨name, i1, o1, g1⟩]⟩ : LLRegistry)).fns.lookup name
        = some s.usedTags :=
    lookup_append_self s.fns name s.usedTags hfn
  have hreq : requestAll s name ((i1, o1, g1) :: rest)
      = (s.usedTags :: List.replicate rest.length s.usedTags,
         ⟨s.usedTags + 1, s.fns ++ [(name, s.usedTags)],
          s.queue ++ [⟨name, i1, o1, g1⟩]⟩) := by
    simp only [requestAll, hstep]
    rw [requestAll_found name s.usedTags rest _ hfound]
  rw [hreq]
  refine ⟨by simp [List.replicate_succ], rfl, ?_, by simp [drainInvokedGens]⟩
  have hnil : s.queue.filter (fun e => e.name == name) = [] := by
    rw [List.filter_eq_nil_iff]
    intro e he
    simp [hq e he]
  dsimp only
  rw [List.filter_append, hnil]
  simp

/-- Witness for C2: two requests for the same helper with different
generator ids. -/
theorem lowLevelFunction_requests_dedup_witness :
    (requestAll ⟨9, [], []⟩ "helper" [(2, 1, 10), (3, 2, 11)]).1 = [9, 9] ∧
    (requestAll ⟨9, [], []⟩ "helper" [(2, 1, 10), (3, 2, 11)]).2.queue
        = [⟨"helper", 2, 1, 10⟩] ∧
    ((requestAll ⟨9, [], []⟩ "helper" [(2, 1, 10), (3, 2, 11)]).2.queue.filter
        (fun e => e.name == "helper")).map LLPending.genId = [10] ∧
    drainInvokedGens (requestAll ⟨9, [], []⟩ "helper" [(2, 1, 10), (3, 2, 11)]).2
        = [10] := by
  have h := lowLevelFunction_requests_dedup ⟨9, [], []⟩ "helper" 2 1 10
    [(3, 2, 11)] rfl (by simp)
  simpa [drainInvokedGens, List.replicate_succ] using h

lemma checkGo_answered :
    ∀ (rs : List (CheckResult × List String)) (last : CheckResult)
      (vals : List String),
      solverAnswered last = true →
      checkGo rs last vals =
        if rs.any (fun p => solverAnswered p.1 && p.1 != last)
        then (.CONFLICTING, vals) else (last, vals) := by
  intro rs
  induction rs with
  | nil => intro last vals h; simp [checkGo]
  | cons p rest ih =>
    intro last vals h
    obtain ⟨r, vs⟩ := p
    rw [checkGo]
    by_cases ha : solverAnswered r = true
    · rw [if_pos ha, if_neg (by simp [h])]
      by_cases hne : last ≠ r
      · rw [if_pos hne]
        have hany : ((r, vs) :: rest).any
            (fun p => solverAnswered p.1 && p.1 != last) = true := by
          rw [List.any_cons]
          have : (solverAnswered r && r != last) = true := by
            simp [ha, bne_iff_ne]
            exact fun hc => hne hc.symm
          rw [this, Bool.true_or]
        rw [if_pos hany]
      · push_neg at hne
        subst hne
        rw [if_neg (by simp)]
        rw [ih last vals h]
        rw [List.any_cons]
        have hcond : (solverAnswered last && last != last
            || rest.any fun p => solverAnswered p.1 && p.1 != last)
            = rest.any fun p => solverAnswered p.1 && p.1 != last := by
          simp [bne_self_eq_false]
        simp only [hcond]
    · rw [if_neg ha]
      have hErr : last ≠ .ERROR := by
        intro hE
        rw [hE] at h
        simp [solverAnswered] at h
      rw [if_neg (by rintro ⟨-, hE⟩; exact hErr hE)]
      rw [ih last vals h]
      rw [List.any_cons]
      have hra : solverAnswered r = false := by simpa using ha
      have hcond : (solverAnswered r && r != last
          || rest.any fun p => solverAnswered p.1 && p.1 != last)
          = rest.any fun p => solverAnswered p.1 && p.1 != last := by
        simp [hra]
      simp only [hcond]

lemma checkGo_conflict :
    ∀ (rs : List (CheckResult × List String)) (last : CheckResult)
      (vals : List String),
      solverAnswered last = false →
      CheckResult.SATISFIABLE ∈ rs.map Prod.fst →
      CheckResult.UNSATISFIABLE ∈ rs.map Prod.fst →
      (checkGo rs last vals).1 = .CONFLICTING := by
  intro rs
  induction rs with
  | nil => intro last vals h hs hu; simp at hs
  | cons p rest ih =>
    intro last vals h hs hu
    obtain ⟨r, vs⟩ := p
    simp only [List.map_cons, List.mem_cons] at hs hu
    rw [checkGo]
    by_cases ha : solverAnswered r = true
    · rw [if_pos ha, if_pos (by simp [h])]
      rw [checkGo_answered rest r vs ha]
      have hother : ∃ q ∈ rest, solverAnswered q.1 = true ∧ q.1 ≠ r := by
        have hcases : r = .SATISFIABLE ∨ r = .UNSATISFIABLE := by
          revert ha
          cases r <;> simp [solverAnswered]
        rcases hcases with rfl | rfl
        · rcases hu with hu1 | hu2
          · simp at hu1
          · obtain ⟨q, hq, hq1⟩ := List.mem_map.mp hu2
            exact ⟨q, hq, by simp [solverAnswered, hq1], by simp [hq1]⟩
        · rcases hs with hs1 | hs2
          · simp at hs1
          · obtain ⟨q, hq, hq1⟩ := List.mem_map.mp hs2
            exact ⟨q, hq, by simp [solverAnswered, hq1], by simp [hq1]⟩
      obtain ⟨q, hq, hqa, hqne⟩ := hother
      have hany : rest.any (fun p => solverAnswered p.1 && p.1 != r) = true := by
        rw [List.any_eq_true]
        exact ⟨q, hq, by simp [hqa, bne_iff_ne, hqne]⟩
      rw [if_pos hany]
    · rw [if_neg ha]
      have hrne : r ≠ CheckResult.SATISFIABLE := by
        rintro rfl; simp [solverAnswered] at ha
      have hrnu : r ≠ CheckResult.UNSATISFIABLE := by
        rintro rfl; simp [solverAnswered] at ha
      have hrs : CheckResult.SATISFIABLE ∈ rest.map Prod.fst := by
        rcases hs with hs1 | hs2
        · exact absurd hs1.symm hrne
        · exact hs2
      have hru : CheckResult.UNSATISFIABLE ∈ rest.map Prod.fst := by
        rcases hu with hu1 | hu2
        · exact absurd hu1.symm hrnu
        · exact hu2
      split_ifs with hc
      · exact ih .UNKNOWN vals (by decide) hrs hru
      · exact ih last vals h hrs hru

lemma checkGo_first_answer :
    ∀ (rs : List (CheckResult × List String)) (last : CheckResult)
      (vals : List String) (r : CheckResult) (vsr : List String),
      solverAnswered last = false →
      rs.find? (fun p => solverAnswered p.1) = some (r, vsr) →
      (∀ p ∈ rs, solverAnswered p.1 = true → p.1 = r) →
      checkGo rs last vals = (r, vsr) := by
  intro rs
  induction rs with
  | nil => intro last vals r vsr h hf hall; simp at hf
  | cons p rest ih =>
    intro last vals r vsr h hf hall
    obtain ⟨r0, vs0⟩ := p
    rw [checkGo]
    by_cases ha : solverAnswered r0 = true
    · rw [if_pos ha, if_pos (by simp [h])]
      rw [List.find?_cons_of_pos _ (by simpa using ha)] at hf
      injection hf with hf1
      have hr0 : r0 = r := congrArg Prod.fst hf1
      rw [checkGo_answered rest r0 vs0 ha]
      have hnone : rest.any (fun q => solverAnswered q.1 && q.1 != r0) = false := by
        rw [List.any_eq_false]
        intro q hq
        by_cases hqa : solverAnswered q.1 = true
        · have hqr := hall q (List.mem_cons_of_mem _ hq) hqa
          simp [hqr, hr0, bne_self_eq_false]
        · simp [hqa]
      rw [if_neg (by simp [hnone])]
      exact hf1
    · rw [if_neg ha]
      rw [List.find?_cons_of_neg _ (by simpa using ha)] at hf
      have hall' : ∀ p ∈ rest, solverAnswered p.1 = true → p.1 = r :=
        fun q hq => hall q (List.mem_cons_of_mem _ hq)
      split_ifs with hc
      · exact ih .UNKNOWN vals r vsr (by decide) hf hall'
      · exact ih last vals r vsr h hf hall'

lemma checkGo_unanswered_unknown :
    ∀ (rs : List (CheckResult × List String)) (vals : List String),
      (∀ p ∈ rs, solverAnswered p.1 = false) →
      checkGo rs .UNKNOWN vals = (.UNKNOWN, vals) := by
  intro rs
  induction rs with
  | nil => intro vals h; simp [checkGo]
  | cons p rest ih =>
    intro vals h
    obtain ⟨r, vs⟩ := p
    rw [checkGo]
    rw [if_neg (by simp [h (r, vs) (List.mem_cons_self _ _)])]
    rw [if_neg (by rintro ⟨-, hE⟩; exact absurd hE (by decide))]
    exact ih vals (fun q hq => h q (List.mem_cons_of_mem _ hq))

lemma checkGo_error_unknown :
    ∀ (rs : List (CheckResult × List String)),
      (∀ p ∈ rs, solverAnswered p.1 = false) →
      CheckResult.UNKNOWN ∈ rs.map Prod.fst →
      checkGo rs .ERROR [] = (.UNKNOWN, []) := by
  intro rs
  induction rs with
  | nil => intro h hu; simp at hu
  | cons p rest ih =>
    intro h hu
    obtain ⟨r, vs⟩ := p
    rw [checkGo]
    rw [if_neg (by simp [h (r, vs) (List.mem_cons_self _ _)])]
    have hrest : ∀ q ∈ rest, solverAnswered q.1 = false :=
      fun q hq => h q (List.mem_cons_of_mem _ hq)
    by_cases hr : r = CheckResult.UNKNOWN
    · rw [if_pos ⟨hr, rfl⟩]
      exact checkGo_unanswered_unknown rest [] hrest
    · rw [if_neg (by rintro ⟨h1, -⟩; exact hr h1)]
      apply ih hrest
      rw [List.map_cons, List.mem_cons] at hu
      rcases hu with hu1 | hu2
      · exact absurd hu1.symm hr
      · exact hu2

lemma checkGo_all_error :
    ∀ (rs : List (CheckResult × List String)),
      (∀ p ∈ rs, solverAnswered p.1 = false ∧ p.1 ≠ .UNKNOWN) →
      checkGo rs .ERROR [] = (.ERROR, []) := by
  intro rs
  induction rs with
  | nil => intro h; simp [checkGo]
  | cons p rest ih =>
    intro h
    obtain ⟨r, vs⟩ := p
    rw [checkGo]
    rw [if_neg (by simp [(h (r, vs) (List.mem_cons_self _ _)).1])]
    have hcond : ¬(r = CheckResult.UNKNOWN ∧
        CheckResult.ERROR = CheckResult.ERROR) := by
      rintro ⟨h1, -⟩
      exact (h (r, vs) (List.mem_cons_self _ _)).2 h1
    rw [if_neg hcond]
    exact ih (fun q hq => h q (List.mem_cons_of_mem _ hq))

/-- C9 (amended): the portfolio returns CONFLICTING whenever two solvers give
disagreeing definitive answers; otherwise it returns the first definitive
answer with that solver's values; with no definitive answer it returns
UNKNOWN when some solver returned UNKNOWN, and ERROR when every solver
returned ERROR or CONFLICTING (a CONFLICTING solver result is ignored like
ERROR). -/
theorem portfolio_check_policy (rs : List (CheckResult × List String)) :
    ((CheckResult.SATISFIABLE ∈ rs.map Prod.fst ∧
      CheckResult.UNSATISFIABLE ∈ rs.map Prod.fst) →
        (portfolioCheck rs).1 = .CONFLICTING) ∧
    (∀ r vsr, rs.find? (fun p => solverAnswered p.1) = some (r, vsr) →
      (∀ p ∈ rs, solverAnswered p.1 = true → p.1 = r) →
      portfolioCheck rs = (r, vsr)) ∧
    ((∀ p ∈ rs, solverAnswered p.1 = false) →
      CheckResult.UNKNOWN ∈ rs.map Prod.fst →
      portfolioCheck rs = (.UNKNOWN, [])) ∧
    ((∀ p ∈ rs, solverAnswered p.1 = false ∧ p.1 ≠ .UNKNOWN) →
      portfolioCheck rs = (.ERROR, [])) := by
  refine ⟨?_, ?_, ?_, ?_⟩
  · rintro ⟨hs, hu⟩
    exact checkGo_conflict rs .ERROR [] (by decide) hs hu
  · intro r vsr hf hall
    exact checkGo_first_answer rs .ERROR [] r vsr (by decide) hf hall
  · intro hna hu
    exact checkGo_error_unknown rs hna hu
  · intro h
    exact checkGo_all_error rs h

/-- Witness for C9 on four concrete portfolios: a conflict, an agreed first
answer, an all-UNKNOWN/ERROR mix, and an ERROR/CONFLICTING mix. -/
theorem portfolio_check_policy_witness :
    (portfolioCheck [(.SATISFIABLE, []), (.UNSATISFIABLE, [])]).1
        = .CONFLICTING ∧
    portfolioCheck [(.UNKNOWN, []), (.SATISFIABLE, ["m"]), (.SATISFIABLE, [])]
        = (.SATISFIABLE, ["m"]) ∧
    portfolioCheck [(.ERROR, []), (.UNKNOWN, [])] = (.UNKNOWN, []) ∧
    portfolioCheck [(.ERROR, []), (.CONFLICTING, [])] = (.ERROR, []) := by
  refine ⟨?_, ?_, ?_, ?_⟩
  · exact (portfolio_check_policy [(.SATISFIABLE, []), (.UNSATISFIABLE, [])]).1
      ⟨by simp, by simp⟩
  · exact (portfolio_check_policy
      [(.UNKNOWN, []), (.SATISFIABLE, ["m"]), (.SATISFIABLE, [])]).2.1
      .SATISFIABLE ["m"] (by simp [List.find?, solverAnswered])
      (by intro p hp hpa; fin_cases hp <;> simp_all [solverAnswered])
  · exact (portfolio_check_policy [(.ERROR, []), (.UNKNOWN, [])]).2.2.1
      (by intro p hp; fin_cases hp <;> simp [solverAnswered]) (by simp)
  · exact (portfolio_check_policy [(.ERROR, []), (.CONFLICTING, [])]).2.2.2
      (by intro p hp; fin_cases hp <;> simp [solverAnswered])

/-- Counterexample to C9 as stated: with the single solver result
CONFLICTING, no solver answered and none returned UNKNOWN, yet the portfolio
returns ERROR although not every solver returned ERROR. -/
theorem portfolio_conflicting_input_counterexample :
    portfolioCheck [(.CONFLICTING, [])] = (.ERROR, []) ∧
    ¬ (∀ p ∈ [((CheckResult.CONFLICTING), ([] : List String))],
        p.1 = CheckResult.ERROR) := by
  constructor
  · rfl
  · intro h
    exact absurd (h (.CONFLICTING, []) (List.mem_singleton.mpr rfl)) (by decide)

/-- Holds when every `Tag` item of the sequence belongs to its own scope
(the assertion `JumpdestRemover::optimise` makes inside `remove_if`). -/
def ownScopeTags (items : List AsmItem) : Bool :=
  items.all fun it =>
    match it with
    | .Tag sub _ => sub == maxSubId
    | _ => true

/-- Holds when some item of the sequence is a `PC` operation. -/
def hasPCOp (items : List AsmItem) : Bool :=
  items.any fun it =>
    match it with
    | .Operation ins => ins == PC
    | _ => false

lemma removeUnrefTags_eq_filter :
    ∀ (items : List AsmItem) (live : Finset Nat),
      ownScopeTags items = true →
      removeUnrefTags items live = .ok (items.filter (keepItem live)) := by
  intro items
  induction items with
  | nil => intro live h; simp [removeUnrefTags]
  | cons it rest ih =>
    intro live h
    simp only [ownScopeTags, List.all_cons, Bool.and_eq_true] at h
    have hrest : ownScopeTags rest = true := h.2
    cases it with
    | Tag sub tag =>
      have hsub : sub = maxSubId := by simpa using h.1
      subst hsub
      simp only [removeUnrefTags, if_pos rfl]
      by_cases hm : tag ∈ live
      · rw [if_pos hm, ih live hrest]
        simp [List.filter_cons, keepItem, hm]
      · rw [if_neg hm, ih live hrest]
        simp [List.filter_cons, keepItem, hm]
    | Operation i =>
      simp only [removeUnrefTags]
      rw [ih live hrest]
      simp [List.filter_cons, keepItem]
    | Push v =>
      simp only [removeUnrefTags]
      rw [ih live hrest]
      simp [List.filter_cons, keepItem]
    | PushTag s t =>
      simp only [removeUnrefTags]
      rw [ih live hrest]
      simp [List.filter_cons, keepItem]
    | PushData hsh =>
      simp only [removeUnrefTags]
      rw [ih live hrest]
      simp [List.filter_cons, keepItem]

lemma optimise_spec (items : List AsmItem) (ext refs : Finset Nat)
    (howns : ownScopeTags items = true)
    (hscan : referencedTags items maxSubId = .ok refs) :
    optimise items ext = .ok (items.filter (keepItem (refs ∪ ext)),
      (items.filter (keepItem (refs ∪ ext))).length != items.length) := by
  unfold optimise
  rw [hscan]
  dsimp only
  rw [removeUnrefTags_eq_filter items (refs ∪ ext) howns]

lemma referencedTagsFrom_ok_step (items : List AsmItem) (subId fuel i : Nat)
    (acc refs : Finset Nat) (item : AsmItem)
    (hitem : items[i]? = some item)
    (h : referencedTagsFrom items subId (fuel + 1) i acc = .ok refs) :
    ∃ acc', referencedTagsFrom items subId fuel (i + 1) acc' = .ok refs
      ∧ acc ⊆ acc' := by
  cases item with
  | Operation instr =>
    simp only [referencedTagsFrom, hitem] at h
    by_cases hpc : instr = PC
    · rw [if_pos hpc] at h
      cases hnxt : items[i + 1]? with
      | none => simp only [hnxt] at h; exact Except.noConfusion h
      | some nxt =>
        simp only [hnxt] at h
        cases hdata : itemData nxt with
        | none => simp only [hdata] at h; exact Except.noConfusion h
        | some a =>
          simp only [hdata] at h
          by_cases h29 : a = 29
          · rw [if_pos h29] at h
            cases h18 : items[i + 18]? with
            | none => simp only [h18] at h; exact Except.noConfusion h
            | some it18 =>
              simp only [h18] at h
              cases hsp : splitForeignPushTag it18 with
              | none => simp only [hsp] at h; exact Except.noConfusion h
              | some st =>
                simp only [hsp] at h
                cases h29i : items[i + 29]? with
                | none => simp only [h29i] at h; exact Except.noConfusion h
                | some w =>
                  simp only [h29i] at h
                  exact ⟨insert st.2 acc, h, Finset.subset_insert _ _⟩
          · rw [if_neg h29] at h
            exact ⟨acc, h, Finset.Subset.refl _⟩
    · rw [if_neg hpc] at h
      exact ⟨acc, h, Finset.Subset.refl _⟩
  | Push v =>
    simp only [referencedTagsFrom, hitem] at h
    exact ⟨acc, h, Finset.Subset.refl _⟩
  | PushTag sub tag =>
    simp only [referencedTagsFrom, hitem] at h
    by_cases hsub : sub = subId
    · rw [if_pos hsub] at h
      exact ⟨insert tag acc, h, Finset.subset_insert _ _⟩
    · rw [if_neg hsub] at h
      exact ⟨acc, h, Finset.Subset.refl _⟩
  | Tag sub tag =>
    simp only [referencedTagsFrom, hitem] at h
    exact ⟨acc, h, Finset.Subset.refl _⟩
  | PushData hsh =>
    simp only [referencedTagsFrom, hitem] at h
    exact ⟨acc, h, Finset.Subset.refl _⟩

lemma referencedTagsFrom_acc_subset :
    ∀ (fuel : Nat) (items : List AsmItem) (subId i : Nat)
      (acc refs : Finset Nat),
      referencedTagsFrom items subId fuel i acc = .ok refs → acc ⊆ refs := by
  intro fuel
  induction fuel with
  | zero =>
    intro items subId i acc refs h
    simp only [referencedTagsFrom] at h
    injection h with h1
    exact h1 ▸ Finset.Subset.refl _
  | succ fuel ih =>
    intro items subId i acc refs h
    cases hitem : items[i]? with
    | none =>
      simp only [referencedTagsFrom, hitem] at h
      injection h with h1
      exact h1 ▸ Finset.Subset.refl _
    | some item =>
      obtain ⟨acc', hstep, hsub⟩ :=
        referencedTagsFrom_ok_step items subId fuel i acc refs item hitem h
      exact hsub.trans (ih items subId (i + 1) acc' refs hstep)

lemma referencedTagsFrom_idiom_mem :
    ∀ (fuel : Nat) (items : List AsmItem) (subId i0 i : Nat)
      (acc refs : Finset Nat) (nxt it18 : AsmItem) (st : Nat × Nat),
      referencedTagsFrom items subId fuel i0 acc = .ok refs →
      i0 ≤ i → i < i0 + fuel →
      items[i]? = some (.Operation PC) →
      items[i + 1]? = some nxt → itemData nxt = some 29 →
      items[i + 18]? = some it18 → splitForeignPushTag it18 = some st →
      st.2 ∈ refs := by
  intro fuel
  induction fuel with
  | zero =>
    intro items subId i0 i acc refs nxt it18 st h hle hlt hpc hnxt hdata h18 hsp
    omega
  | succ fuel ih =>
    intro items subId i0 i acc refs nxt it18 st h hle hlt hpc hnxt hdata h18 hsp
    by_cases hi : i0 = i
    · subst hi
      simp only [referencedTagsFrom, hpc, hnxt, hdata, h18, hsp,
        eq_self_iff_true, if_true] at h
      cases h29i : items[i0 + 29]? with
      | none => simp only [h29i] at h; exact Except.noConfusion h
      | some w =>
        simp only [h29i] at h
        have hsubset := referencedTagsFrom_acc_subset fuel items subId (i0 + 1)
          (insert st.2 acc) refs h
        exact hsubset (Finset.mem_insert_self _ _)
    · have hlt0 : i0 < i := lt_of_le_of_ne hle hi
      have hilen : i < items.length := by
        obtain ⟨hl, -⟩ := List.getElem?_eq_some_iff.mp hpc
        exact hl
      have hitem0 : items[i0]? = some items[i0] :=
        List.getElem?_eq_getElem (by omega)
      obtain ⟨acc', hstep, -⟩ :=
        referencedTagsFrom_ok_step items subId fuel i0 acc refs items[i0] hitem0 h
      exact ih items subId (i0 + 1) i acc' refs nxt it18 st hstep
        (by omega) (by omega) hpc hnxt hdata h18 hsp

/-- Accumulator form of the same-scope push-tag collection, matching the
order in which the scan inserts. -/
def pushTagAccum (subId : Nat) : List AsmItem → Finset Nat → Finset Nat
  | [], acc => acc
  | .PushTag sub tag :: rest, acc =>
    pushTagAccum subId rest (if sub = subId then insert tag acc else acc)
  | _ :: rest, acc => pushTagAccum subId rest acc

lemma pushTagAccum_eq_union (subId : Nat) :
    ∀ (l : List AsmItem) (acc : Finset Nat),
      pushTagAccum subId l acc = pushTagRefs subId l ∪ acc := by
  intro l
  induction l with
  | nil => intro acc; simp [pushTagAccum, pushTagRefs]
  | cons it rest ih =>
    intro acc
    cases it with
    | PushTag sub tag =>
      simp only [pushTagAccum, pushTagRefs]
      by_cases hsub : sub = subId
      · rw [if_pos hsub, if_pos hsub, ih]
        rw [Finset.union_insert, Finset.insert_union]
      · rw [if_neg hsub, if_neg hsub, ih]
    | Operation i => simp only [pushTagAccum, pushTagRefs]; exact ih acc
    | Push v => simp only [pushTagAccum, pushTagRefs]; exact ih acc
    | Tag sub tag => simp only [pushTagAccum, pushTagRefs]; exact ih acc
    | PushData hsh => simp only [pushTagAccum, pushTagRefs]; exact ih acc

lemma referencedTagsFrom_no_pc :
    ∀ (fuel : Nat) (items : List AsmItem) (subId i : Nat) (acc : Finset Nat),
      hasPCOp items = false →
      referencedTagsFrom items subId fuel i acc
        = .ok (pushTagAccum subId ((items.drop i).take fuel) acc) := by
  intro fuel
  induction fuel with
  | zero =>
    intro items subId i acc h
    simp [referencedTagsFrom, pushTagAccum]
  | succ fuel ih =>
    intro items subId i acc h
    cases hitem : items[i]? with
    | none =>
      have hlen : items.length ≤ i := List.getElem?_eq_none_iff.mp hitem
      simp only [referencedTagsFrom, hitem]
      rw [List.drop_eq_nil_of_le hlen]
      simp [pushTagAccum]
    | some item =>
      obtain ⟨hilen, hget⟩ := List.getElem?_eq_some_iff.mp hitem
      have hdrop : items.drop i = item :: items.drop (i + 1) := by
        rw [List.drop_eq_getElem_cons hilen, hget]
      rw [hdrop, List.take_succ_cons]
      cases item with
      | Operation instr =>
        have hins : instr ≠ PC := by
          intro hPC
          subst hPC
          have hmem : AsmItem.Operation PC ∈ items := List.getElem?_mem hitem
          have hany : hasPCOp items = true := by
            rw [hasPCOp, List.any_eq_true]
            exact ⟨_, hmem, by simp⟩
          rw [h] at hany
          exact Bool.noConfusion hany
        simp only [referencedTagsFrom, hitem]
        rw [if_neg hins, ih items subId (i + 1) acc h]
        simp [pushTagAccum]
      | PushTag sub tag =>
        simp only [referencedTagsFrom, hitem]
        rw [ih items subId (i + 1) _ h]
        simp [pushTagAccum]
      | Push v =>
        simp only [referencedTagsFrom, hitem]
        rw [ih items subId (i + 1) acc h]
        simp [pushTagAccum]
      | Tag sub tag =>
        simp only [referencedTagsFrom, hitem]
        rw [ih items subId (i + 1) acc h]
        simp [pushTagAccum]
      | PushData hsh =>
        simp only [referencedTagsFrom, hitem]
        rw [ih items subId (i + 1) acc h]
        simp [pushTagAccum]

lemma referencedTags_no_pc (items : List AsmItem) (subId : Nat)
    (h : hasPCOp items = false) :
    referencedTags items subId = .ok (pushTagRefs subId items) := by
  rw [referencedTags, referencedTagsFrom_no_pc items.length items subId 0 ∅ h]
  rw [List.drop_zero, List.take_length, pushTagAccum_eq_union,
    Finset.union_empty]

lemma pushTagRefs_filter (subId : Nat) (live : Finset Nat) :
    ∀ (items : List AsmItem),
      pushTagRefs subId (items.filter (keepItem live))
        = pushTagRefs subId items := by
  intro items
  induction items with
  | nil => rfl
  | cons it rest ih =>
    cases it with
    | Tag sub tag =>
      rw [List.filter_cons]
      by_cases hm : tag ∈ live
      · rw [if_pos (by simp [keepItem, hm])]
        simp only [pushTagRefs]
        exact ih
      · rw [if_neg (by simp [keepItem, hm])]
        simp only [pushTagRefs]
        exact ih
    | PushTag sub tag =>
      rw [List.filter_cons, if_pos (by simp [keepItem])]
      simp only [pushTagRefs]
      rw [ih]
    | Operation i =>
      rw [List.filter_cons, if_pos (by simp [keepItem])]
      simp only [pushTagRefs]
      exact ih
    | Push v =>
      rw [List.filter_cons, if_pos (by simp [keepItem])]
      simp only [pushTagRefs]
      exact ih
    | PushData hsh =>
      rw [List.filter_cons, if_pos (by simp [keepItem])]
      simp only [pushTagRefs]
      exact ih

lemma hasPCOp_filter (live : Finset Nat) (items : List AsmItem)
    (h : hasPCOp items = false) :
    hasPCOp (items.filter (keepItem live)) = false := by
  rw [hasPCOp, List.any_eq_false] at h ⊢
  intro it hit
  exact h it (List.mem_filter.mp hit).1

lemma ownScopeTags_filter (live : Finset Nat) (items : List AsmItem)
    (h : ownScopeTags items = true) :
    ownScopeTags (items.filter (keepItem live)) = true := by
  rw [ownScopeTags, List.all_eq_true] at h ⊢
  intro it hit
  exact h it (List.mem_filter.mp hit).1

lemma filter_length_bne_iff (p : AsmItem → Bool) (items : List AsmItem) :
    ((items.filter p).length != items.length) = true
      ↔ ∃ it ∈ items, p it = false := by
  rw [bne_iff_ne]
  constructor
  · intro hne
    by_contra hno
    push_neg at hno
    have hall : items.filter p = items := by
      rw [List.filter_eq_self]
      intro a ha
      have := hno a ha
      exact Bool.ne_false_iff.mp this
    exact hne (by rw [hall])
  · rintro ⟨it, hit, hpf⟩ hlen
    have hself : items.filter p = items :=
      List.Sublist.eq_of_length (List.filter_sublist _) hlen
    have hmem : it ∈ items.filter p := by rw [hself]; exact hit
    have := (List.mem_filter.mp hmem).2
    rw [hpf] at this
    exact Bool.noConfusion this

/-- C3 (amended): with all tags own-scope and a successful reference scan,
the eliminator deletes exactly the `Tag` items whose id is in neither the
collected reference set (same-scope push-tag references together with the
idiom-marked tags) nor the external set, keeping all other items in order;
it returns true iff something was deleted; and on sequences without a PC
operation an immediate second run deletes nothing and returns false. -/
theorem jumpdest_remover_removes_unreferenced (items : List AsmItem)
    (ext refs : Finset Nat)
    (howns : ownScopeTags items = true)
    (hscan : referencedTags items maxSubId = .ok refs) :
    optimise items ext = .ok (items.filter (keepItem (refs ∪ ext)),
        (items.filter (keepItem (refs ∪ ext))).length != items.length) ∧
    (((items.filter (keepItem (refs ∪ ext))).length != items.length) = true ↔
        ∃ it ∈ items, keepItem (refs ∪ ext) it = false) ∧
    (hasPCOp items = false →
      optimise (items.filter (keepItem (refs ∪ ext))) ext
        = .ok (items.filter (keepItem (refs ∪ ext)), false)) := by
  refine ⟨optimise_spec items ext refs howns hscan,
    filter_length_bne_iff _ _, ?_⟩
  intro hnoPC
  have hrefs : refs = pushTagRefs maxSubId items := by
    have h2 := referencedTags_no_pc items maxSubId hnoPC
    rw [hscan] at h2
    exact Except.ok.inj h2
  have howns2 : ownScopeTags (items.filter (keepItem (refs ∪ ext))) = true :=
    ownScopeTags_filter _ _ howns
  have hnoPC2 : hasPCOp (items.filter (keepItem (refs ∪ ext))) = false :=
    hasPCOp_filter _ _ hnoPC
  have hscan2 : referencedTags (items.filter (keepItem (refs ∪ ext))) maxSubId
      = .ok refs := by
    rw [referencedTags_no_pc _ maxSubId hnoPC2, pushTagRefs_filter, ← hrefs]
  have hspec2 := optimise_spec (items.filter (keepItem (refs ∪ ext)))
    ext refs howns2 hscan2
  have hfix : (items.filter (keepItem (refs ∪ ext))).filter
      (keepItem (refs ∪ ext)) = items.filter (keepItem (refs ∪ ext)) := by
    rw [List.filter_eq_self]
    intro a ha
    exact (List.mem_filter.mp ha).2
  rw [hfix] at hspec2
  rw [bne_self_eq_false] at hspec2
  exact hspec2

/-- Witness for C3 on a small no-PC sequence: tag 1 is referenced, tag 2 is
deleted, and a second run changes nothing. -/
theorem jumpdest_remover_removes_unreferenced_witness :
    optimise [AsmItem.Tag maxSubId 1, .PushTag maxSubId 1, .Tag maxSubId 2,
        .Push 5] ∅
      = .ok ([.Tag maxSubId 1, .PushTag maxSubId 1, .Push 5], true) ∧
    optimise [AsmItem.Tag maxSubId 1, .PushTag maxSubId 1, .Push 5] ∅
      = .ok ([.Tag maxSubId 1, .PushTag maxSubId 1, .Push 5], false) := by
  have h := jumpdest_remover_removes_unreferenced
    [AsmItem.Tag maxSubId 1, .PushTag maxSubId 1, .Tag maxSubId 2, .Push 5] ∅
    {1} (by decide) (by decide)
  obtain ⟨h1, -, h3⟩ := h
  have h3' := h3 (by decide)
  have hl : ([AsmItem.Tag maxSubId 1, .PushTag maxSubId 1, .Tag maxSubId 2,
      .Push 5].filter (keepItem ({1} ∪ ∅)))
      = [AsmItem.Tag maxSubId 1, .PushTag maxSubId 1, .Push 5] := by decide
  constructor
  · exact h1.trans (by decide)
  · rw [hl] at h3'
    exact h3'

/-- Counterexample to C3 as stated: in `jrCexItems` tag 7 is referenced by
no same-scope push-tag (and the external set is empty), yet the pass keeps
its `Tag` item (the PC idiom marks it); moreover an immediate second run
deletes that tag and returns true, so the pass is not idempotent. -/
theorem jumpdest_remover_counterexample :
    7 ∉ pushTagRefs maxSubId jrCexItems ∪ (∅ : Finset Nat) ∧
    optimise jrCexItems ∅ = .ok (jrCexKept, true) ∧
    AsmItem.Tag maxSubId 7 ∈ jrCexKept ∧
    optimise jrCexKept ∅ = .ok (jrCexKept2, true) ∧
    jrCexKept2 ≠ jrCexKept := by decide

/-- C4: if the sequence contains the calling-convention idiom (a PC
operation whose next item has data 29), the scan marks the tag split out of
the item 18 positions later as referenced, and its `Tag` item survives the
eliminator even with no ordinary same-scope push-tag reference to it. -/
theorem idiom_referenced_tag_survives (items : List AsmItem)
    (ext refs : Finset Nat) (i t sub : Nat) (nxt it18 : AsmItem)
    (howns : ownScopeTags items = true)
    (hscan : referencedTags items maxSubId = .ok refs)
    (hpc : items[i]? = some (.Operation PC))
    (hnxt : items[i + 1]? = some nxt)
    (hdata : itemData nxt = some 29)
    (h18 : items[i + 18]? = some it18)
    (hsp : splitForeignPushTag it18 = some (sub, t))
    (htag : AsmItem.Tag maxSubId t ∈ items) :
    t ∈ refs ∧
    AsmItem.Tag maxSubId t ∈ items.filter (keepItem (refs ∪ ext)) ∧
    optimise items ext = .ok (items.filter (keepItem (refs ∪ ext)),
        (items.filter (keepItem (refs ∪ ext))).length != items.length) := by
  have hilen : i < items.length := by
    obtain ⟨hl, -⟩ := List.getElem?_eq_some_iff.mp hpc
    exact hl
  have hscan' : referencedTagsFrom items maxSubId items.length 0 ∅
      = .ok refs := hscan
  have ht : t ∈ refs := by
    have hmem := referencedTagsFrom_idiom_mem items.length items maxSubId 0 i
      ∅ refs nxt it18 (sub, t) hscan' (Nat.zero_le i) (by omega)
      hpc hnxt hdata h18 hsp
    simpa using hmem
  refine ⟨ht, ?_, optimise_spec items ext refs howns hscan⟩
  rw [List.mem_filter]
  refine ⟨htag, ?_⟩
  simp [keepItem, Finset.mem_union, ht]

/-- Witness for C4 on `idiomWitnessItems`: tag 7 is reachable only through
the idiom (the +18 item is a foreign push-tag) and survives. -/
theorem idiom_referenced_tag_survives_witness :
    (7 ∈ ({7} : Finset Nat)) ∧
    AsmItem.Tag maxSubId 7 ∈ idiomWitnessItems.filter (keepItem ({7} ∪ ∅)) ∧
    optimise idiomWitnessItems ∅
      = .ok (idiomWitnessItems.filter (keepItem ({7} ∪ ∅)),
          (idiomWitnessItems.filter (keepItem ({7} ∪ ∅))).length
            != idiomWitnessItems.length) :=
  idiom_referenced_tag_survives idiomWitnessItems ∅ {7} 0 7 3
    (.Push 29) (.PushTag 3 7) (by decide) (by decide) (by decide) (by decide)
    (by decide) (by decide) (by decide) (by decide)

/-- C10: running the reference scan on a sequence whose final item is a PC
operation makes the loop read past the end of the sequence (index `i+1` for
the last index `i`), modelled as an out-of-range error. -/
theorem referencedTags_out_of_range_at_trailing_pc :
    referencedTags [AsmItem.Operation PC] maxSubId
      = .error (.outOfRange 1) := by decide

end OVM
